import Mathlib

/-!
Verification of the `mlflow_observer.py` Sacred-to-MLflow observer adapter.

Python strings are embedded as lists of characters (`Str`), Python dicts as
insertion-ordered association lists, and nested configuration values as the
inductive type `NVal`.  The adapter's outbound MLflow API calls are embedded
as an explicit trace of `StoreCall` values; filesystem and clock queries
(`os.path.isdir`, `datetime.now().strftime`) and the store-assigned run id
are inputs supplied by the environment.
-/

/-- A Python string, embedded as its list of characters. -/
abbrev Str := List Char

/-- Embed a Lean string literal as a `Str`. -/
def str (s : String) : Str := s.data

/-- A nested Python value as seen by `flatten_dict`: either a non-mapping leaf
value (of some leaf type `α`) or a mapping, embedded as an insertion-ordered
association list with `Str` keys. -/
inductive NVal (α : Type) where
  | leaf : α → NVal α
  | map : List (Str × NVal α) → NVal α

/-- True exactly for a non-empty mapping value (`isinstance(v, Mapping) and v`
in the source). -/
def is_nonempty_map {α : Type} : NVal α → Bool
  | NVal.map (_ :: _) => true
  | _ => false

/-- Python `dict` insertion of one key/value pair: if the key is present its
value is replaced in place, otherwise the pair is appended at the end. -/
def dictInsert {β : Type} : List (Str × β) → Str → β → List (Str × β)
  | [], k, v => [(k, v)]
  | (k0, v0) :: rest, k, v =>
    if k0 = k then (k0, v) :: rest else (k0, v0) :: dictInsert rest k v

/-- Python `dict(pairs)`: builds an insertion-ordered dict from a sequence of
key/value pairs, later values winning on duplicate keys. -/
def pyDict {β : Type} (l : List (Str × β)) : List (Str × β) :=
  l.foldl (fun acc kv => dictInsert acc kv.1 kv.2) []

/-- The generator `_flatten_dict(d, parent_key)` from the source.  The first
list argument is the dict being walked, the `Str` argument is `parent_key`
(`None` at the top is embedded as the empty string, which Python treats the
same under `if not parent_key`).  A non-empty mapping value is recursed into
with the extended key; every other value (leaves and the empty mapping) is
yielded under `parent_key + k`. -/
def flattenAux {α : Type} (sep : Str) : List (Str × NVal α) → Str → List (Str × NVal α)
  | [], _ => []
  | (k, v) :: rest, parentKey =>
    (match v with
     | NVal.map (e :: es) =>
       flattenAux sep (e :: es) ((if parentKey = [] then [] else parentKey ++ sep) ++ k)
     | _ => [((if parentKey = [] then [] else parentKey ++ sep) ++ k, v)])
    ++ flattenAux sep rest parentKey

/-- The function `flatten_dict(d, sep='.')` from the source:
`dict(_flatten_dict(d, parent_key=None))`. -/
def flatten_dict {α : Type} (d : List (Str × NVal α)) (sep : Str := ['.']) :
    List (Str × NVal α) :=
  pyDict (flattenAux sep d [])

/-- Split a character list on a separator character, Python-`str.split` style:
`splitOnChar c [] = [[]]` and every occurrence of `c` opens a new chunk. -/
def splitOnChar (c : Char) : Str → List Str
  | [] => [[]]
  | x :: xs =>
    if x = c then [] :: splitOnChar c xs
    else
      match splitOnChar c xs with
      | [] => [[x]]
      | y :: ys => (x :: y) :: ys

/-- Join a path of key components exactly the way the source's recursion
accumulates `parent_key`: an empty accumulated key contributes no separator. -/
def joinPath (sep : Str) (path : List Str) : Str :=
  path.foldl (fun acc k => if acc = [] then k else acc ++ sep ++ k) []

/-- Path-level restatement of the source's flattening recursion: identical
traversal, but recording the full list of parent keys instead of the
accumulated string key. -/
def flattenPathsRaw {α : Type} : List (Str × NVal α) → List Str → List (List Str × NVal α)
  | [], _ => []
  | (k, v) :: rest, path =>
    (match v with
     | NVal.map (e :: es) => flattenPathsRaw (e :: es) (path ++ [k])
     | _ => [(path ++ [k], v)])
    ++ flattenPathsRaw rest path

/-- Insert a value at a key path into a nested association list, creating
nested mappings along the path; used to state re-nesting of a flat dict. -/
def insertPath {α : Type} : List Str → NVal α → List (Str × NVal α) → List (Str × NVal α)
  | [], _, m => m
  | [k], v, m => m ++ [(k, v)]
  | k :: k2 :: ks, v, [] => [(k, NVal.map (insertPath (k2 :: ks) v []))]
  | k :: k2 :: ks, v, (k0, v0) :: rest =>
    if k = k0 then
      match v0 with
      | NVal.map sub => (k0, NVal.map (insertPath (k2 :: ks) v sub)) :: rest
      | _ => (k0, v0) :: rest
    else (k0, v0) :: insertPath (k :: k2 :: ks) v rest
termination_by p _ m => (p.length, m.length)

/-- Modelled from the spec: re-nesting the output of `flatten` "by splitting
each composite key on the separator" (the default separator `'.'`); no such
inverse exists in the source, so it is built here from the spec's words as
path-wise insertion of each flat entry. -/
def unflatten {α : Type} (flat : List (Str × NVal α)) : List (Str × NVal α) :=
  flat.foldl (fun acc kv => insertPath (splitOnChar '.' kv.1) kv.2 acc) []

/-- A key is good when it is non-empty and avoids the default separator. -/
def goodKey (k : Str) : Bool := decide (k ≠ [] ∧ '.' ∉ k)

/-- A nested mapping is good when, at every level, keys are good and pairwise
distinct (Python dicts always have distinct keys). -/
def goodEntries {α : Type} : List (Str × NVal α) → Bool
  | [] => true
  | (k, v) :: rest =>
    goodKey k &&
    (match v with
     | NVal.map es => goodEntries es
     | NVal.leaf _ => true) &&
    !(decide (k ∈ rest.map Prod.fst)) && goodEntries rest

/-- Python `int()` applied to a rational: truncation toward zero, as in
`int(t.timestamp() * 1000)` in the source. -/
def pyInt (q : ℚ) : ℤ := if 0 ≤ q then ⌊q⌋ else -⌊-q⌋

/-- One MLflow metric sample, `Metric(name, value, timestamp, step)`. -/
structure Metric where
  key : Str
  value : ℚ
  timestamp : ℤ
  step : ℤ

/-- The per-metric payload Sacred hands to `log_metrics`: the three parallel
sequences found under the `'steps'`, `'values'` and `'timestamps'` keys.
Timestamps are fractional seconds since the epoch (`t.timestamp()` of the
datetime objects Sacred stores). -/
structure MetricDict where
  steps : List ℤ
  values : List ℚ
  timestamps : List ℚ

/-- The batch built by `log_metrics` for one metric name:
`[Metric(name, v, int(t.timestamp() * 1000), step) for v, t, step in
zip(values, timestamps, steps)]`. -/
def mkBatch (name : Str) (md : MetricDict) : List Metric :=
  (md.values.zip (md.timestamps.zip md.steps)).map
    (fun vts => { key := name, value := vts.1,
                  timestamp := pyInt (vts.2.1 * 1000), step := vts.2.2 })

/-- MLflow run status, modelling the external `mlflow.entities.RunStatus`
enumeration used by the source. -/
inductive RunStatus where
  | RUNNING
  | SCHEDULED
  | FINISHED
  | FAILED
  | KILLED

/-- String form of a run status, modelling `RunStatus.to_string` of the
external MLflow client library. -/
def RunStatus.to_string : RunStatus → Str
  | RunStatus.RUNNING => str "RUNNING"
  | RunStatus.SCHEDULED => str "SCHEDULED"
  | RunStatus.FINISHED => str "FINISHED"
  | RunStatus.FAILED => str "FAILED"
  | RunStatus.KILLED => str "KILLED"

/-- Final path component, modelling `os.path.basename` on POSIX paths: the
part of the path after the last `'/'`. -/
def basename (p : Str) : Str := (splitOnChar '/' p).getLastD []

/-- One outbound call against the MLflow tracking API, with the arguments the
adapter passes.  `α` is the leaf type of configuration values. -/
inductive StoreCall (α : Type) where
  | set_tracking_uri : Option Str → StoreCall α
  | set_experiment : Str → StoreCall α
  | start_run : Str → StoreCall α
  | log_params : List (Str × NVal α) → StoreCall α
  | set_tag : Str → Str → StoreCall α
  | set_tags : List (Str × Str) → StoreCall α
  | end_run : Str → StoreCall α
  | log_batch : Option Str → List Metric → StoreCall α
  | log_artifacts : Option Str → Str → Str → StoreCall α
  | log_artifact : Option Str → Str → StoreCall α

/-- The mutable state of an `MlflowObserver` instance: the constructor
arguments `tracking_uri` and `time_fmt`, and the `_run_id` field, `None`
until the start event fires. -/
structure ObserverState where
  tracking_uri : Option Str
  time_fmt : Str
  run_id : Option Str

/-- The `MlflowObserver.__init__` constructor: stores the two configuration
fields and initialises `_run_id` to `None`. -/
def observerInit (tracking_uri : Option Str) (time_fmt : Str) : ObserverState :=
  { tracking_uri := tracking_uri, time_fmt := time_fmt, run_id := none }

/-- The `queued_event` handler: `pass` (its payload is ignored by the source,
so it is not embedded). -/
def queued_event {α : Type} (st : ObserverState) : ObserverState × List (StoreCall α) :=
  (st, [])

/-- The `heartbeat_event` handler: `pass` (payload ignored by the source). -/
def heartbeat_event {α : Type} (st : ObserverState) : ObserverState × List (StoreCall α) :=
  (st, [])

/-- The `resource_event` handler: `pass` (payload ignored by the source). -/
def resource_event {α : Type} (st : ObserverState) : ObserverState × List (StoreCall α) :=
  (st, [])

/-- The `started_event` handler.  `ex_name` is `ex_info['name']`, `sources`
is `ex_info['sources']` as (name, hash) pairs, `comment` is
`meta_info.get('comment')`, `now_fmt` is the environment-supplied value of
`datetime.datetime.now().strftime(self.time_fmt)`, and `assigned_run_id` is
the id of the run object the store returns from `start_run`.  Returns the new
state, the trace of outbound calls in source order, and the returned id. -/
def started_event {α : Type} (st : ObserverState) (ex_name : Str)
    (sources : List (Str × Str)) (host_info : List (Str × Str))
    (config : List (Str × NVal α)) (comment : Option Str) (now_fmt : Str)
    (sacred_id : Str) (assigned_run_id : Str) :
    ObserverState × List (StoreCall α) × Str :=
  let name := match comment with
    | some c => c
    | none => str "run_" ++ now_fmt
  ({ st with run_id := some assigned_run_id },
   [StoreCall.set_tracking_uri st.tracking_uri,
    StoreCall.set_experiment ex_name,
    StoreCall.start_run name,
    StoreCall.log_params (flatten_dict config),
    StoreCall.set_tag (str "sacred_id") sacred_id,
    StoreCall.set_tags (host_info.map (fun kv => (str "host_info." ++ kv.1, kv.2))),
    StoreCall.set_tags (sources.map (fun s => (str "sources." ++ s.1, s.2)))],
   assigned_run_id)

/-- The `completed_event` handler:
`end_run(status=RunStatus.to_string(RunStatus.FINISHED))`. -/
def completed_event {α : Type} (st : ObserverState) : ObserverState × List (StoreCall α) :=
  (st, [StoreCall.end_run (RunStatus.to_string RunStatus.FINISHED)])

/-- The `interrupted_event` handler:
`end_run(status=RunStatus.to_string(RunStatus.KILLED))`. -/
def interrupted_event {α : Type} (st : ObserverState) : ObserverState × List (StoreCall α) :=
  (st, [StoreCall.end_run (RunStatus.to_string RunStatus.KILLED)])

/-- The `failed_event` handler:
`end_run(status=RunStatus.to_string(RunStatus.FAILED))`. -/
def failed_event {α : Type} (st : ObserverState) : ObserverState × List (StoreCall α) :=
  (st, [StoreCall.end_run (RunStatus.to_string RunStatus.FAILED)])

/-- The `log_metrics` handler: one `log_batch` call per named metric, in
input order, each under the current `_run_id`. -/
def log_metrics {α : Type} (st : ObserverState)
    (metrics_by_name : List (Str × MetricDict)) :
    ObserverState × List (StoreCall α) :=
  (st, metrics_by_name.map
    (fun nm => StoreCall.log_batch st.run_id (mkBatch nm.1 nm.2)))

/-- The `artifact_event` handler.  `isdir` is the environment-supplied value
of `os.path.isdir(filename)`: a directory is uploaded with `log_artifacts`
under its base name, anything else with `log_artifact` and no artifact
path. -/
def artifact_event {α : Type} (st : ObserverState) (filename : Str) (isdir : Bool) :
    ObserverState × List (StoreCall α) :=
  if isdir then
    (st, [StoreCall.log_artifacts st.run_id filename (basename filename)])
  else
    (st, [StoreCall.log_artifact st.run_id filename])

/-! ## Helper lemmas about metric batches -/

theorem mkBatch_length (name : Str) (md : MetricDict) :
    (mkBatch name md).length =
      min md.values.length (min md.timestamps.length md.steps.length) := by
  simp [mkBatch]

theorem mkBatch_getD (name : Str) (md : MetricDict) (i : ℕ)
    (h : i < (mkBatch name md).length) :
    (mkBatch name md).getD i { key := [], value := 0, timestamp := 0, step := 0 } =
      { key := name, value := md.values.getD i 0,
        timestamp := pyInt (md.timestamps.getD i 0 * 1000),
        step := md.steps.getD i 0 } := by
  have hl := mkBatch_length name md
  have h1 : i < md.values.length := by omega
  have h2 : i < md.timestamps.length := by omega
  have h3 : i < md.steps.length := by omega
  rw [List.getD_eq_getElem _ _ h, List.getD_eq_getElem _ _ h1,
      List.getD_eq_getElem _ _ h2, List.getD_eq_getElem _ _ h3]
  simp [mkBatch]

theorem pyInt_ofNat (n : ℕ) : pyInt (n : ℚ) = n := by
  rw [pyInt, if_pos (by positivity)]
  simp

theorem pyInt_thousand : pyInt ((1000 : ℚ) * 1000) = 1000000 := by
  have h : ((1000 : ℚ) * 1000) = ((1000000 : ℕ) : ℚ) := by norm_num
  rw [h, pyInt_ofNat]; rfl

theorem pyInt_thousand_one : pyInt ((1001 : ℚ) * 1000) = 1001000 := by
  have h : ((1001 : ℚ) * 1000) = ((1001000 : ℕ) : ℚ) := by norm_num
  rw [h, pyInt_ofNat]; rfl

theorem batch_loss_eval :
    mkBatch (str "loss") ⟨[0, 1], [1/2, 3/10], [1000, 1001]⟩ =
      [⟨str "loss", 1/2, 1000000, 0⟩, ⟨str "loss", 3/10, 1001000, 1⟩] := by
  simp [mkBatch, pyInt_thousand, pyInt_thousand_one]

theorem pyInt_one_point_seven : pyInt ((17 : ℚ) / 10000 * 1000) = 1 := by
  have h : ((17 : ℚ) / 10000 * 1000) = 17 / 10 := by norm_num
  rw [h, pyInt, if_pos (by norm_num), Int.floor_eq_iff]
  norm_num

theorem round_one_point_seven : round ((17 : ℚ) / 10000 * 1000) = 2 := by
  have h : ((17 : ℚ) / 10000 * 1000) = 17 / 10 := by norm_num
  rw [h, round_eq, Int.floor_eq_iff]
  norm_num

/-! ## C1: timestamp conversion in log_metrics -/

/-- C1 counterexample: the claim says the millisecond timestamp is
`round(seconds * 1000)`, but on a metric observed at 0.0017 seconds since the
epoch the source submits `int(0.0017 * 1000) = 1` while
`round(0.0017 * 1000) = 2`. -/
theorem C1_counterexample :
    (mkBatch (str "loss") ⟨[0], [1/2], [17/10000]⟩).map Metric.timestamp = [1]
    ∧ round ((17 : ℚ) / 10000 * 1000) = 2 ∧ (1 : ℤ) ≠ 2 := by
  refine ⟨?_, round_one_point_seven, by decide⟩
  simp [mkBatch, pyInt_one_point_seven]

/-- C1 (amended): `log_metrics` converts each timestamp from fractional
seconds since the epoch to integer milliseconds by truncation toward zero,
`milliseconds = int(seconds * 1000)`; in particular, for metric values
`[0.5, 0.3]` with timestamps `[1000.0, 1001.0]` and steps `[0, 1]` the
submitted batch has two entries with millisecond timestamps `1000000` and
`1001000`, in that order. -/
theorem C1_timestamp_trunc (st : ObserverState) (name : Str) (md : MetricDict)
    (i : ℕ) (h : i < (mkBatch name md).length) :
    ((mkBatch name md).getD i ⟨[], 0, 0, 0⟩).timestamp =
      pyInt (md.timestamps.getD i 0 * 1000)
    ∧ (log_metrics (α := Unit) st
        [(str "loss", ⟨[0, 1], [1/2, 3/10], [1000, 1001]⟩)]).2 =
      [StoreCall.log_batch st.run_id
        [⟨str "loss", 1/2, 1000000, 0⟩, ⟨str "loss", 3/10, 1001000, 1⟩]] := by
  constructor
  · rw [mkBatch_getD name md i h]
  · simp only [log_metrics, List.map_cons, List.map_nil]
    rw [batch_loss_eval]

/-- Witness for C1 at a concrete input. -/
theorem C1_timestamp_trunc_witness :
    0 < (mkBatch (str "loss") ⟨[0], [1/2], [1000]⟩).length
    ∧ ((mkBatch (str "loss") ⟨[0], [1/2], [1000]⟩).getD 0 ⟨[], 0, 0, 0⟩).timestamp =
        pyInt ((1000 : ℚ) * 1000) :=
  ⟨by simp [mkBatch],
   (C1_timestamp_trunc ⟨none, [], none⟩ (str "loss") ⟨[0], [1/2], [1000]⟩ 0
     (by simp [mkBatch])).1⟩

/-! ## C5: positional zipping into a single batch per metric -/

/-- C5: for each metric name whose values/timestamps/steps have equal length
`n`, `log_metrics` submits exactly one batch per named metric, in input
order, under the current run identifier; the batch has exactly `n` entries
and its `i`-th entry is built positionally from the `i`-th value, `i`-th
timestamp and `i`-th step. -/
theorem C5_positional (st : ObserverState) (mbn : List (Str × MetricDict))
    (name : Str) (md : MetricDict) (n : ℕ) (hv : md.values.length = n)
    (ht : md.timestamps.length = n) (hs : md.steps.length = n) :
    (log_metrics (α := Unit) st mbn).2 =
      mbn.map (fun nm => StoreCall.log_batch st.run_id (mkBatch nm.1 nm.2))
    ∧ (mkBatch name md).length = n
    ∧ ∀ i, i < n →
        (mkBatch name md).getD i ⟨[], 0, 0, 0⟩ =
          { key := name, value := md.values.getD i 0,
            timestamp := pyInt (md.timestamps.getD i 0 * 1000),
            step := md.steps.getD i 0 } := by
  refine ⟨rfl, ?_, fun i hi => mkBatch_getD name md i ?_⟩
  · rw [mkBatch_length]; omega
  · rw [mkBatch_length]; omega

/-- Witness for C5 at a concrete input. -/
theorem C5_positional_witness :
    ([1/2, 3/10] : List ℚ).length = 2
    ∧ ([1000, 1001] : List ℚ).length = 2
    ∧ ([0, 1] : List ℤ).length = 2
    ∧ (mkBatch (str "loss") ⟨[0, 1], [1/2, 3/10], [1000, 1001]⟩).length = 2 :=
  ⟨rfl, rfl, rfl,
   (C5_positional ⟨none, [], none⟩ [] (str "loss")
     ⟨[0, 1], [1/2, 3/10], [1000, 1001]⟩ 2 rfl rfl rfl).2.1⟩

/-! ## C10: length-mismatched metric sequences -/

/-- C10: when the three sequences of a metric have unequal lengths,
`log_metrics` raises no error (it is total in this model and still emits one
batch per metric name); the batch silently has
`min(len(values), min(len(timestamps), len(steps)))` entries, paired
positionally from the front of each sequence. -/
theorem C10_length_mismatch (st : ObserverState) (mbn : List (Str × MetricDict))
    (name : Str) (md : MetricDict) :
    (mkBatch name md).length =
      min md.values.length (min md.timestamps.length md.steps.length)
    ∧ (∀ i, i < (mkBatch name md).length →
        (mkBatch name md).getD i ⟨[], 0, 0, 0⟩ =
          { key := name, value := md.values.getD i 0,
            timestamp := pyInt (md.timestamps.getD i 0 * 1000),
            step := md.steps.getD i 0 })
    ∧ (log_metrics (α := Unit) st mbn).2.length = mbn.length :=
  ⟨mkBatch_length name md, fun i hi => mkBatch_getD name md i hi,
   by simp [log_metrics]⟩

/-- Witness for C10 at a concrete input with unequal lengths (3 steps,
2 values, 1 timestamp: the batch has exactly one entry). -/
theorem C10_length_mismatch_witness :
    (mkBatch (str "m") ⟨[0, 1, 2], [1/2, 3/10], [5]⟩).length = 1
    ∧ (mkBatch (str "m") ⟨[0, 1, 2], [1/2, 3/10], [5]⟩).getD 0 ⟨[], 0, 0, 0⟩ =
        ⟨str "m", 1/2, pyInt ((5 : ℚ) * 1000), 0⟩ :=
  ⟨(C10_length_mismatch ⟨none, [], none⟩ [] (str "m")
      ⟨[0, 1, 2], [1/2, 3/10], [5]⟩).1,
   (C10_length_mismatch ⟨none, [], none⟩ [] (str "m")
      ⟨[0, 1, 2], [1/2, 3/10], [5]⟩).2.1 0 (by simp [mkBatch])⟩

/-! ## C6: terminal events and run statuses -/

/-- C6: each terminal event issues exactly one `end_run` call with the status
matched to the event: `completed_event` ends the run as FINISHED,
`interrupted_event` as KILLED, `failed_event` as FAILED. -/
theorem C6_terminal_statuses (st : ObserverState) :
    completed_event (α := Unit) st = (st, [StoreCall.end_run (str "FINISHED")])
    ∧ interrupted_event (α := Unit) st = (st, [StoreCall.end_run (str "KILLED")])
    ∧ failed_event (α := Unit) st = (st, [StoreCall.end_run (str "FAILED")]) :=
  ⟨rfl, rfl, rfl⟩

/-! ## C7: artifact upload branching -/

/-- C7: with a directory path, `artifact_event` uploads the whole directory
under an artifact path equal to the directory's final path component; with a
file path it uploads that single file with no artifact-path argument; e.g.
the base name of `"results/plots"` is `"plots"`. -/
theorem C7_artifact_branching (st : ObserverState) (filename : Str) :
    artifact_event (α := Unit) st filename true =
      (st, [StoreCall.log_artifacts st.run_id filename (basename filename)])
    ∧ artifact_event (α := Unit) st filename false =
      (st, [StoreCall.log_artifact st.run_id filename])
    ∧ basename (str "results/plots") = str "plots" :=
  ⟨rfl, rfl, rfl⟩

/-! ## C8: run display name selection -/

/-- C8: on the start event the run display name is the caller-supplied
comment when present, and otherwise `"run_"` followed by the formatted
current time; the third outbound call is always `start_run` with that name. -/
theorem C8_run_name (st : ObserverState) (ex_name : Str)
    (sources : List (Str × Str)) (host_info : List (Str × Str))
    (config : List (Str × NVal Unit)) (now_fmt : Str) (sacred_id : Str)
    (rid : Str) (c : Str) :
    ((started_event st ex_name sources host_info config (some c) now_fmt
        sacred_id rid).2.1).get? 2 = some (StoreCall.start_run c)
    ∧ ((started_event st ex_name sources host_info config none now_fmt
        sacred_id rid).2.1).get? 2 =
        some (StoreCall.start_run (str "run_" ++ now_fmt)) :=
  ⟨rfl, rfl⟩

/-! ## C9: only the start transition mutates the run identifier -/

/-- C9: `started_event` is the only operation that mutates `_run_id`: it sets
it to the store-assigned run identifier (keeping `tracking_uri` and
`time_fmt`) and returns it; every other handler leaves the whole observer
state unchanged. -/
theorem C9_run_id_frame (st : ObserverState) (ex_name : Str)
    (sources : List (Str × Str)) (host_info : List (Str × Str))
    (config : List (Str × NVal Unit)) (comment : Option Str) (now_fmt : Str)
    (sacred_id : Str) (rid : Str) (mbn : List (Str × MetricDict))
    (filename : Str) (isdir : Bool) :
    (started_event st ex_name sources host_info config comment now_fmt
        sacred_id rid).1 = { st with run_id := some rid }
    ∧ (started_event st ex_name sources host_info config comment now_fmt
        sacred_id rid).2.2 = rid
    ∧ (queued_event (α := Unit) st).1 = st
    ∧ (heartbeat_event (α := Unit) st).1 = st
    ∧ (resource_event (α := Unit) st).1 = st
    ∧ (log_metrics (α := Unit) st mbn).1 = st
    ∧ (artifact_event (α := Unit) st filename isdir).1 = st
    ∧ (completed_event (α := Unit) st).1 = st
    ∧ (interrupted_event (α := Unit) st).1 = st
    ∧ (failed_event (α := Unit) st).1 = st := by
  refine ⟨rfl, rfl, rfl, rfl, rfl, rfl, ?_, rfl, rfl, rfl⟩
  cases isdir <;> rfl

/-! ## Helper lemmas about splitting and joining keys -/

theorem splitOnChar_ne_nil (c : Char) (s : Str) : splitOnChar c s ≠ [] := by
  induction s with
  | nil => simp [splitOnChar]
  | cons x xs ih =>
    simp only [splitOnChar]
    split
    · simp
    · cases hs : splitOnChar c xs with
      | nil => simp
      | cons y ys => simp [hs]

theorem splitOnChar_not_mem (c : Char) (k : Str) (h : c ∉ k) :
    splitOnChar c k = [k] := by
  induction k with
  | nil => rfl
  | cons x xs ih =>
    simp only [List.mem_cons, not_or] at h
    obtain ⟨h1, h2⟩ := h
    simp only [splitOnChar, if_neg (Ne.symm h1)]
    rw [ih h2]

theorem splitOnChar_append (c : Char) (a x : Str) (h : c ∉ a) :
    splitOnChar c (a ++ c :: x) = a :: splitOnChar c x := by
  induction a with
  | nil => simp [splitOnChar]
  | cons y ys ih =>
    simp only [List.mem_cons, not_or] at h
    obtain ⟨h1, h2⟩ := h
    rw [List.cons_append]
    simp only [splitOnChar, if_neg (Ne.symm h1)]
    rw [ih h2]

theorem joinPath_snoc (sep : Str) (path : List Str) (k : Str) :
    joinPath sep (path ++ [k]) =
      (if joinPath sep path = [] then [] else joinPath sep path ++ sep) ++ k := by
  unfold joinPath
  rw [List.foldl_append]
  simp only [List.foldl_cons, List.foldl_nil]
  split <;> simp

theorem joinStep_prepend (k a : Str) (p : List Str) (h : a ≠ []) :
    List.foldl (fun acc x => if acc = [] then x else acc ++ ['.'] ++ x)
      (k ++ '.' :: a) p =
      k ++ '.' :: List.foldl
        (fun acc x => if acc = [] then x else acc ++ ['.'] ++ x) a p := by
  induction p generalizing a with
  | nil => simp
  | cons x p2 ih =>
    simp only [List.foldl_cons]
    have h1 : k ++ '.' :: a ≠ [] := by simp
    rw [if_neg h1, if_neg h]
    have h2 : (k ++ '.' :: a) ++ ['.'] ++ x = k ++ '.' :: (a ++ ['.'] ++ x) := by
      simp
    rw [h2]
    exact ih _ (by simp)

theorem joinPath_cons_cons (k k2 : Str) (p : List Str) (hk : k ≠ [])
    (hk2 : k2 ≠ []) :
    joinPath ['.'] (k :: k2 :: p) = k ++ '.' :: joinPath ['.'] (k2 :: p) := by
  have e1 : ∀ x : Str, (if ([] : Str) = [] then x else [] ++ ['.'] ++ x) = x :=
    fun x => if_pos rfl
  unfold joinPath
  simp only [List.foldl_cons, e1, ite_true, if_neg hk]
  have h : k ++ ['.'] ++ k2 = k ++ '.' :: k2 := by simp
  rw [h]
  exact joinStep_prepend k k2 p hk2

theorem splitOnChar_joinPath (p : List Str) (h : ∀ k ∈ p, k ≠ [] ∧ '.' ∉ k)
    (hne : p ≠ []) : splitOnChar '.' (joinPath ['.'] p) = p := by
  induction p with
  | nil => cases hne rfl
  | cons k p2 ih =>
    cases p2 with
    | nil =>
      have hk := h k (by simp)
      have hj : joinPath ['.'] [k] = k := by simp [joinPath]
      rw [hj, splitOnChar_not_mem '.' k hk.2]
    | cons k2 p3 =>
      have hk := h k (by simp)
      have hk2 := h k2 (by simp)
      rw [joinPath_cons_cons k k2 p3 hk.1 hk2.1,
          splitOnChar_append '.' k _ hk.2,
          ih (fun x hx => h x (List.mem_cons_of_mem _ hx)) (by simp)]

/-! ## The flattening recursion as path collection -/

theorem flattenAux_eq_raw {α : Type} (sep : Str) (d : List (Str × NVal α))
    (path : List Str) :
    flattenAux sep d (joinPath sep path) =
      (flattenPathsRaw d path).map (fun pv => (joinPath sep pv.1, pv.2)) := by
  induction d, path using flattenPathsRaw.induct with
  | case1 x => simp [flattenAux, flattenPathsRaw]
  | case2 k v rest path ih1 ih2 =>
    cases v with
    | leaf a =>
      simp only [flattenAux, flattenPathsRaw, List.map_append, List.map_cons,
        List.map_nil]
      rw [ih2, ← joinPath_snoc]
    | map es =>
      cases es with
      | nil =>
        simp only [flattenAux, flattenPathsRaw, List.map_append, List.map_cons,
          List.map_nil]
        rw [ih2, ← joinPath_snoc]
      | cons e es2 =>
        have ih1a : flattenAux sep (e :: es2) (joinPath sep (path ++ [k])) =
            (flattenPathsRaw (e :: es2) (path ++ [k])).map
              (fun pv => (joinPath sep pv.1, pv.2)) := ih1
        simp only [flattenAux, flattenPathsRaw, List.map_append]
        rw [ih2, ← joinPath_snoc, ih1a]

theorem flattenAux_eq_raw0 {α : Type} (sep : Str) (d : List (Str × NVal α)) :
    flattenAux sep d [] =
      (flattenPathsRaw d []).map (fun pv => (joinPath sep pv.1, pv.2)) :=
  flattenAux_eq_raw sep d []

theorem raw_prepend {α : Type} (d : List (Str × NVal α)) (path q : List Str) :
    flattenPathsRaw d (q ++ path) =
      (flattenPathsRaw d path).map (fun pv => (q ++ pv.1, pv.2)) := by
  induction d, path using flattenPathsRaw.induct with
  | case1 x => simp [flattenPathsRaw]
  | case2 k v rest path ih1 ih2 =>
    cases v with
    | leaf a =>
      simp only [flattenPathsRaw, List.map_append, List.map_cons, List.map_nil]
      rw [ih2, List.append_assoc]
    | map es =>
      cases es with
      | nil =>
        simp only [flattenPathsRaw, List.map_append, List.map_cons, List.map_nil]
        rw [ih2, List.append_assoc]
      | cons e es2 =>
        have ih1a : flattenPathsRaw (e :: es2) (q ++ (path ++ [k])) =
            (flattenPathsRaw (e :: es2) (path ++ [k])).map
              (fun pv => (q ++ pv.1, pv.2)) := ih1
        simp only [flattenPathsRaw, List.map_append]
        rw [ih2, List.append_assoc, ih1a]

theorem raw_cons_key {α : Type} (d : List (Str × NVal α)) (k : Str) :
    flattenPathsRaw d [k] =
      (flattenPathsRaw d []).map (fun pv => (k :: pv.1, pv.2)) := by
  have h := raw_prepend d [] [k]
  simpa using h

theorem raw_path_shape {α : Type} (d : List (Str × NVal α))
    (pv : List Str × NVal α) (h : pv ∈ flattenPathsRaw d []) :
    ∃ k t, pv.1 = k :: t ∧ k ∈ d.map Prod.fst := by
  induction d with
  | nil => simp [flattenPathsRaw] at h
  | cons hd rest ih =>
    obtain ⟨k, v⟩ := hd
    cases v with
    | leaf a =>
      simp only [flattenPathsRaw, List.nil_append] at h
      rcases List.mem_append.mp h with hb | hr
      · have hpv : pv = ([k], NVal.leaf a) := by simpa using hb
        exact ⟨k, [], by simp [hpv], List.mem_cons_self _ _⟩
      · obtain ⟨k2, t, ht, hk2⟩ := ih hr
        exact ⟨k2, t, ht, List.mem_cons_of_mem _ hk2⟩
    | map es =>
      cases es with
      | nil =>
        simp only [flattenPathsRaw, List.nil_append] at h
        rcases List.mem_append.mp h with hb | hr
        · have hpv : pv = ([k], NVal.map []) := by simpa using hb
          exact ⟨k, [], by simp [hpv], List.mem_cons_self _ _⟩
        · obtain ⟨k2, t, ht, hk2⟩ := ih hr
          exact ⟨k2, t, ht, List.mem_cons_of_mem _ hk2⟩
      | cons e es2 =>
        simp only [flattenPathsRaw, List.nil_append] at h
        rcases List.mem_append.mp h with hb | hr
        · rw [raw_cons_key] at hb
          obtain ⟨pv2, hmem2, hpv2⟩ := List.mem_map.mp hb
          exact ⟨k, pv2.1, by rw [← hpv2], List.mem_cons_self _ _⟩
        · obtain ⟨k2, t, ht, hk2⟩ := ih hr
          exact ⟨k2, t, ht, List.mem_cons_of_mem _ hk2⟩

/-! ## Goodness of entries and distinctness of emitted paths -/

theorem goodKey_spec (k : Str) (h : goodKey k = true) : k ≠ [] ∧ '.' ∉ k := by
  simpa [goodKey] using h

theorem goodEntries_cons {α : Type} (k : Str) (v : NVal α)
    (rest : List (Str × NVal α)) (h : goodEntries ((k, v) :: rest) = true) :
    goodKey k = true ∧ (∀ es, v = NVal.map es → goodEntries es = true)
    ∧ k ∉ rest.map Prod.fst ∧ goodEntries rest = true := by
  rw [goodEntries.eq_def] at h
  simp only [Bool.and_eq_true, Bool.not_eq_true', decide_eq_false_iff_not] at h
  obtain ⟨⟨⟨h1, h2⟩, h3⟩, h4⟩ := h
  refine ⟨h1, ?_, h3, h4⟩
  intro es hes
  rw [hes] at h2
  exact h2

theorem raw_path_good {α : Type} :
    ∀ (d : List (Str × NVal α)), goodEntries d = true →
      ∀ pv ∈ flattenPathsRaw d [],
        pv.1 ≠ [] ∧ ∀ k2 ∈ pv.1, k2 ≠ [] ∧ '.' ∉ k2 := by
  intro d
  induction d using goodEntries.induct with
  | case1 =>
    intro _ pv h
    simp [flattenPathsRaw] at h
  | case2 k v rest ih1 ih2 =>
    intro hg pv h
    obtain ⟨hk, hv, hnm, hrest⟩ := goodEntries_cons k v rest hg
    have hkg := goodKey_spec k hk
    cases v with
    | leaf a =>
      simp only [flattenPathsRaw, List.nil_append] at h
      rcases List.mem_append.mp h with hb | hr
      · have hpv : pv = ([k], NVal.leaf a) := by simpa using hb
        refine ⟨by simp [hpv], ?_⟩
        intro k2 hk2
        rw [hpv] at hk2
        simp only [List.mem_singleton] at hk2
        rw [hk2]
        exact hkg
      · exact ih2 hrest pv hr
    | map es =>
      cases es with
      | nil =>
        simp only [flattenPathsRaw, List.nil_append] at h
        rcases List.mem_append.mp h with hb | hr
        · have hpv : pv = ([k], NVal.map []) := by simpa using hb
          refine ⟨by simp [hpv], ?_⟩
          intro k2 hk2
          rw [hpv] at hk2
          simp only [List.mem_singleton] at hk2
          rw [hk2]
          exact hkg
        · exact ih2 hrest pv hr
      | cons e es2 =>
        have ih1a : goodEntries (e :: es2) = true →
            ∀ pv ∈ flattenPathsRaw (e :: es2) [],
              pv.1 ≠ [] ∧ ∀ k2 ∈ pv.1, k2 ≠ [] ∧ '.' ∉ k2 := ih1
        simp only [flattenPathsRaw, List.nil_append] at h
        rcases List.mem_append.mp h with hb | hr
        · rw [raw_cons_key] at hb
          obtain ⟨pv2, hmem2, hpv2⟩ := List.mem_map.mp hb
          have hgood2 := ih1a (hv (e :: es2) rfl) pv2 hmem2
          refine ⟨by rw [← hpv2]; simp, ?_⟩
          intro k2 hk2
          rw [← hpv2] at hk2
          rcases List.mem_cons.mp hk2 with h1 | h2
          · rw [h1]; exact hkg
          · exact hgood2.2 k2 h2
        · exact ih2 hrest pv hr

theorem raw_nonempty {α : Type} :
    ∀ (d : List (Str × NVal α)) (path : List Str), d ≠ [] →
      flattenPathsRaw d path ≠ [] := by
  intro d path
  induction d, path using flattenPathsRaw.induct with
  | case1 x =>
    intro h
    exact absurd rfl h
  | case2 k v rest path ih1 ih2 =>
    intro _
    cases v with
    | leaf a => simp [flattenPathsRaw]
    | map es =>
      cases es with
      | nil => simp [flattenPathsRaw]
      | cons e es2 =>
        have ih1a : (e :: es2) ≠ [] → flattenPathsRaw (e :: es2) (path ++ [k]) ≠ [] := ih1
        simp only [flattenPathsRaw]
        intro hcontra
        rw [List.append_eq_nil] at hcontra
        exact ih1a (by simp) hcontra.1

theorem raw_paths_nodup {α : Type} :
    ∀ (d : List (Str × NVal α)), goodEntries d = true →
      ((flattenPathsRaw d []).map Prod.fst).Nodup := by
  intro d
  induction d using goodEntries.induct with
  | case1 =>
    intro _
    simp [flattenPathsRaw]
  | case2 k v rest ih1 ih2 =>
    intro hg
    obtain ⟨hk, hv, hnm, hrest⟩ := goodEntries_cons k v rest hg
    have hsingle : ∀ w : NVal α,
        ([k] : List Str) ∉ (flattenPathsRaw rest []).map Prod.fst →
        ((([([k], w)] : List (List Str × NVal α))
          ++ flattenPathsRaw rest []).map Prod.fst).Nodup := by
      intro w hnotin
      simp only [List.map_append, List.map_cons, List.map_nil,
        List.singleton_append]
      exact List.nodup_cons.mpr ⟨hnotin, ih2 hrest⟩
    have hnotin : ([k] : List Str) ∉ (flattenPathsRaw rest []).map Prod.fst := by
      intro hmem
      obtain ⟨pv2, hmem2, hpv2⟩ := List.mem_map.mp hmem
      obtain ⟨k2, t, ht, hk2⟩ := raw_path_shape rest pv2 hmem2
      rw [ht] at hpv2
      have : k2 = k := (List.cons.injEq k2 t k []).mp hpv2 |>.1
      exact hnm (this ▸ hk2)
    cases v with
    | leaf a =>
      simp only [flattenPathsRaw, List.nil_append]
      exact hsingle (NVal.leaf a) hnotin
    | map es =>
      cases es with
      | nil =>
        simp only [flattenPathsRaw, List.nil_append]
        exact hsingle (NVal.map []) hnotin
      | cons e es2 =>
        have ih1a : goodEntries (e :: es2) = true →
            ((flattenPathsRaw (e :: es2) []).map Prod.fst).Nodup := ih1
        simp only [flattenPathsRaw, List.nil_append]
        rw [raw_cons_key, List.map_append]
        apply List.Nodup.append
        · rw [List.map_map]
          have hfun : (Prod.fst ∘ fun pv : List Str × NVal α =>
              ((k :: pv.1 : List Str), pv.2)) =
              (fun pv : List Str × NVal α => (k :: pv.1 : List Str)) := rfl
          rw [hfun]
          have hin := ih1a (hv (e :: es2) rfl)
          have hmm : (fun pv : List Str × NVal α => (k :: pv.1 : List Str)) =
              (fun p : List Str => (k :: p : List Str)) ∘ Prod.fst := rfl
          rw [hmm, ← List.map_map]
          exact hin.map (fun p1 p2 hpp => by injection hpp)
        · exact ih2 hrest
        · intro a ha1 ha2
          obtain ⟨x, hx, hxa⟩ := List.mem_map.mp ha1
          obtain ⟨pv2, hpv2mem, hpv2⟩ := List.mem_map.mp hx
          obtain ⟨pv3, hmem3, hpv3⟩ := List.mem_map.mp ha2
          obtain ⟨k3, t3, ht3, hk3⟩ := raw_path_shape rest pv3 hmem3
          have ha : a = k :: pv2.1 := by rw [← hxa, ← hpv2]
          have hb2 : a = k3 :: t3 := by rw [← hpv3, ht3]
          rw [ha] at hb2
          injection hb2 with h1 h2
          exact hnm (h1 ▸ hk3)

theorem flatten_keys_nodup {α : Type} (d : List (Str × NVal α))
    (hg : goodEntries d = true) :
    ((flattenAux ['.'] d []).map Prod.fst).Nodup := by
  rw [flattenAux_eq_raw0, List.map_map]
  have hfun : (Prod.fst ∘ fun pv : List Str × NVal α =>
      (joinPath ['.'] pv.1, pv.2)) =
      (joinPath ['.']) ∘ (Prod.fst : List Str × NVal α → List Str) := rfl
  rw [hfun, ← List.map_map]
  have hnd := raw_paths_nodup d hg
  apply List.Nodup.map_on ?inj hnd
  intro x hx y hy hxy
  obtain ⟨pvx, hpvx, hpvx2⟩ := List.mem_map.mp hx
  obtain ⟨pvy, hpvy, hpvy2⟩ := List.mem_map.mp hy
  have hgx := raw_path_good d hg pvx hpvx
  have hgy := raw_path_good d hg pvy hpvy
  have hgx2 : ∀ k2 ∈ x, k2 ≠ [] ∧ '.' ∉ k2 := by rw [← hpvx2]; exact hgx.2
  have hgy2 : ∀ k2 ∈ y, k2 ≠ [] ∧ '.' ∉ k2 := by rw [← hpvy2]; exact hgy.2
  have hxne : x ≠ [] := by rw [← hpvx2]; exact hgx.1
  have hyne : y ≠ [] := by rw [← hpvy2]; exact hgy.1
  rw [← splitOnChar_joinPath x hgx2 hxne, ← splitOnChar_joinPath y hgy2 hyne,
    hxy]

/-! ## Properties of the dict constructor -/

theorem dictInsert_not_mem {β : Type} (acc : List (Str × β)) (k : Str) (v : β)
    (h : k ∉ acc.map Prod.fst) : dictInsert acc k v = acc ++ [(k, v)] := by
  induction acc with
  | nil => rfl
  | cons hd t ih =>
    obtain ⟨k0, v0⟩ := hd
    simp only [List.map_cons, List.mem_cons, not_or] at h
    simp only [dictInsert, if_neg (Ne.symm h.1)]
    rw [ih h.2]
    rfl

theorem foldl_dictInsert {β : Type} :
    ∀ (l acc : List (Str × β)), (l.map Prod.fst).Nodup →
      (∀ k2 ∈ l.map Prod.fst, k2 ∉ acc.map Prod.fst) →
      List.foldl (fun a kv => dictInsert a kv.1 kv.2) acc l = acc ++ l := by
  intro l
  induction l with
  | nil =>
    intro acc _ _
    simp
  | cons hd t ih =>
    intro acc hnd hdis
    obtain ⟨k, v⟩ := hd
    simp only [List.map_cons, List.nodup_cons] at hnd
    simp only [List.foldl_cons]
    rw [dictInsert_not_mem acc k v (hdis k (List.mem_cons_self _ _))]
    have hdis2 : ∀ k2 ∈ t.map Prod.fst, k2 ∉ (acc ++ [(k, v)]).map Prod.fst := by
      intro k2 hk2
      simp only [List.map_append, List.map_cons, List.map_nil, List.mem_append,
        List.mem_singleton, not_or]
      refine ⟨hdis k2 (List.mem_cons_of_mem _ hk2), ?_⟩
      intro hcontra
      exact hnd.1 (hcontra ▸ hk2)
    rw [ih (acc ++ [(k, v)]) hnd.2 hdis2]
    simp

theorem pyDict_eq_self {β : Type} (l : List (Str × β))
    (hnd : (l.map Prod.fst).Nodup) : pyDict l = l := by
  have h := foldl_dictInsert l [] hnd (fun k2 h2 => List.not_mem_nil k2)
  simpa [pyDict] using h

theorem dictInsert_snd {β : Type} (acc : List (Str × β)) (k : Str) (v : β)
    (kv : Str × β) (h : kv ∈ dictInsert acc k v) :
    kv.2 = v ∨ kv.2 ∈ acc.map Prod.snd := by
  induction acc with
  | nil =>
    simp only [dictInsert, List.mem_singleton] at h
    left
    rw [h]
  | cons hd t ih =>
    obtain ⟨k0, v0⟩ := hd
    simp only [dictInsert] at h
    by_cases hk : k0 = k
    · rw [if_pos hk] at h
      rcases List.mem_cons.mp h with h1 | h2
      · left; rw [h1]
      · right
        exact List.mem_cons_of_mem _ (List.mem_map_of_mem Prod.snd h2)
    · rw [if_neg hk] at h
      rcases List.mem_cons.mp h with h1 | h2
      · right; rw [h1]; exact List.mem_cons_self _ _
      · rcases ih h2 with h3 | h4
        · left; exact h3
        · right; exact List.mem_cons_of_mem _ h4

theorem foldl_dictInsert_snd {β : Type} :
    ∀ (l acc : List (Str × β)) (kv : Str × β),
      kv ∈ List.foldl (fun a kv2 => dictInsert a kv2.1 kv2.2) acc l →
      kv.2 ∈ acc.map Prod.snd ∨ kv.2 ∈ l.map Prod.snd := by
  intro l
  induction l with
  | nil =>
    intro acc kv h
    left
    exact List.mem_map_of_mem Prod.snd h
  | cons hd t ih =>
    intro acc kv h
    simp only [List.foldl_cons] at h
    rcases ih (dictInsert acc hd.1 hd.2) kv h with h1 | h2
    · obtain ⟨kv3, hmem3, heq3⟩ := List.mem_map.mp h1
      rcases dictInsert_snd acc hd.1 hd.2 kv3 hmem3 with h3 | h4
      · right
        rw [← heq3, h3]
        exact List.mem_cons_self _ _
      · left
        rw [← heq3]
        exact h4
    · right
      exact List.mem_cons_of_mem _ h2

theorem pyDict_snd {β : Type} (l : List (Str × β)) (kv : Str × β)
    (h : kv ∈ pyDict l) : kv.2 ∈ l.map Prod.snd := by
  rcases foldl_dictInsert_snd l [] kv (by simpa [pyDict] using h) with h1 | h2
  · simp at h1
  · exact h2

/-! ## No nested non-empty mapping survives flattening -/

theorem flattenAux_no_nested {α : Type} (sep : Str) :
    ∀ (d : List (Str × NVal α)) (p : Str) (kv : Str × NVal α),
      kv ∈ flattenAux sep d p → is_nonempty_map kv.2 = false := by
  intro d p
  induction d, p using flattenAux.induct sep with
  | case1 x =>
    intro kv h
    simp [flattenAux] at h
  | case2 k v rest p ih1 ih2 =>
    intro kv h
    cases v with
    | leaf a =>
      simp only [flattenAux, List.singleton_append] at h
      rcases List.mem_cons.mp h with hb | hr
      · rw [hb]; rfl
      · exact ih2 kv hr
    | map es =>
      cases es with
      | nil =>
        simp only [flattenAux, List.singleton_append] at h
        rcases List.mem_cons.mp h with hb | hr
        · rw [hb]; rfl
        · exact ih2 kv hr
      | cons e es2 =>
        have ih1a : ∀ kv2 ∈ flattenAux sep (e :: es2)
            ((if p = [] then [] else p ++ sep) ++ k),
            is_nonempty_map kv2.2 = false := ih1
        simp only [flattenAux] at h
        rcases List.mem_append.mp h with hb | hr
        · exact ih1a kv hb
        · exact ih2 kv hr

/-! ## C3: flattened values are never non-empty mappings -/

/-- C3: no value in the output of `flatten_dict` is a non-empty mapping, and
an empty mapping value is preserved as-is under its composite key; in
particular `flatten_dict {} = {}` and
`flatten_dict {'a': {}} = {'a': {}}`. -/
theorem C3_no_nested_values :
    (∀ (α : Type) (d : List (Str × NVal α)) (sep : Str) (kv : Str × NVal α),
       kv ∈ flatten_dict d sep → is_nonempty_map kv.2 = false)
    ∧ flatten_dict ([] : List (Str × NVal Unit)) = []
    ∧ flatten_dict [(str "a", (NVal.map [] : NVal Unit))] =
        [(str "a", NVal.map [])] := by
  refine ⟨?_, by simp [flatten_dict, flattenAux, pyDict], ?_⟩
  · intro α d sep kv h
    have h2 := pyDict_snd _ kv h
    obtain ⟨kv2, hmem2, heq2⟩ := List.mem_map.mp h2
    rw [← heq2]
    exact flattenAux_no_nested sep d [] kv2 hmem2
  · simp [flatten_dict, flattenAux, pyDict, dictInsert]

/-- Witness for C3 at a concrete input. -/
theorem C3_no_nested_values_witness :
    ((str "a.b", NVal.leaf ()) ∈
      flatten_dict [(str "a", NVal.map [(str "b", NVal.leaf ())])])
    ∧ is_nonempty_map (((str "a.b", NVal.leaf ()) : Str × NVal Unit)).2 = false :=
  ⟨by simp [flatten_dict, flattenAux, pyDict, dictInsert, str],
   C3_no_nested_values.1 Unit [(str "a", NVal.map [(str "b", NVal.leaf ())])]
     ['.'] (str "a.b", NVal.leaf ())
     (by simp [flatten_dict, flattenAux, pyDict, dictInsert, str])⟩

/-! ## C4: output keys are separator-joined root paths -/

/-- C4: the output of `flatten_dict` is exactly the dict of
`(joinPath sep path, value)` over the leaf-or-empty-mapping positions of the
input, where `path` is the list of parent keys from the root and joining adds
a separator only after a non-empty accumulated prefix (so root-level keys
carry no prefix); e.g. flattening `{'a': {'b': 1, 'c': {'d': 2}}}` yields
`{'a.b': 1, 'a.c.d': 2}`. -/
theorem C4_keys_are_joined_paths :
    (∀ (α : Type) (d : List (Str × NVal α)) (sep : Str),
       flatten_dict d sep =
         pyDict ((flattenPathsRaw d []).map
           (fun pv => (joinPath sep pv.1, pv.2))))
    ∧ flatten_dict [(str "a", NVal.map [(str "b", NVal.leaf (1 : ℚ)),
        (str "c", NVal.map [(str "d", NVal.leaf 2)])])] =
      [(str "a.b", NVal.leaf 1), (str "a.c.d", NVal.leaf 2)] := by
  constructor
  · intro α d sep
    unfold flatten_dict
    rw [flattenAux_eq_raw0]
  · simp [flatten_dict, flattenAux, pyDict, dictInsert, str]

/-! ## Re-nesting undoes flattening on good mappings -/

theorem insertPath_single {α : Type} (k : Str) (v : NVal α)
    (m : List (Str × NVal α)) : insertPath [k] v m = m ++ [(k, v)] := by
  simp [insertPath]

theorem insertPath_new {α : Type} (k k2 : Str) (ks : List Str) (v : NVal α) :
    ∀ (acc : List (Str × NVal α)), k ∉ acc.map Prod.fst →
      insertPath (k :: k2 :: ks) v acc =
        acc ++ [(k, NVal.map (insertPath (k2 :: ks) v []))] := by
  intro acc
  induction acc with
  | nil =>
    intro _
    rw [insertPath.eq_3]
    rfl
  | cons hd t ih =>
    intro h
    obtain ⟨k0, v0⟩ := hd
    simp only [List.map_cons, List.mem_cons, not_or] at h
    cases v0 with
    | map sub =>
      rw [insertPath.eq_4, if_neg h.1, ih h.2]
      rfl
    | leaf a =>
      rw [insertPath.eq_5 _ _ _ _ _ _ _ (fun s2 h2 => NVal.noConfusion h2),
        if_neg h.1, ih h.2]
      rfl

theorem insertPath_extend {α : Type} (k k2 : Str) (ks : List Str) (v : NVal α) :
    ∀ (acc m : List (Str × NVal α)), k ∉ acc.map Prod.fst →
      insertPath (k :: k2 :: ks) v (acc ++ [(k, NVal.map m)]) =
        acc ++ [(k, NVal.map (insertPath (k2 :: ks) v m))] := by
  intro acc
  induction acc with
  | nil =>
    intro m _
    simp only [List.nil_append]
    rw [insertPath.eq_4, if_pos rfl]
  | cons hd t ih =>
    intro m h
    obtain ⟨k0, v0⟩ := hd
    simp only [List.map_cons, List.mem_cons, not_or] at h
    cases v0 with
    | map sub =>
      rw [List.cons_append, insertPath.eq_4, if_neg h.1, ih m h.2]
      rfl
    | leaf a =>
      rw [List.cons_append,
        insertPath.eq_5 _ _ _ _ _ _ _ (fun s2 h2 => NVal.noConfusion h2),
        if_neg h.1, ih m h.2]
      rfl

theorem foldl_insert_block {α : Type} (k : Str) :
    ∀ (L : List (List Str × NVal α)) (m acc : List (Str × NVal α)),
      k ∉ acc.map Prod.fst → (∀ pv ∈ L, pv.1 ≠ []) →
      List.foldl (fun a pv => insertPath pv.1 pv.2 a) (acc ++ [(k, NVal.map m)])
        (L.map (fun pv => ((k :: pv.1 : List Str), pv.2))) =
      acc ++ [(k, NVal.map
        (List.foldl (fun a pv => insertPath pv.1 pv.2 a) m L))] := by
  intro L
  induction L with
  | nil =>
    intro m acc _ _
    simp
  | cons pv0 L2 ih =>
    intro m acc hk hne
    obtain ⟨p, v⟩ := pv0
    cases p with
    | nil => exact absurd rfl (hne ([], v) (List.mem_cons_self _ _))
    | cons p1 ps =>
      simp only [List.map_cons, List.foldl_cons]
      rw [insertPath_extend k p1 ps v acc m hk]
      exact ih (insertPath (p1 :: ps) v m) acc hk
        (fun pv h => hne pv (List.mem_cons_of_mem _ h))

theorem foldl_insert_raw {α : Type} :
    ∀ (d : List (Str × NVal α)), goodEntries d = true →
      ∀ acc : List (Str × NVal α),
        (∀ k2 ∈ d.map Prod.fst, k2 ∉ acc.map Prod.fst) →
        List.foldl (fun a pv => insertPath pv.1 pv.2 a) acc
          (flattenPathsRaw d []) = acc ++ d := by
  intro d
  induction d using goodEntries.induct with
  | case1 =>
    intro _ acc _
    simp [flattenPathsRaw]
  | case2 k v rest ih1 ih2 =>
    intro hg acc hdis
    obtain ⟨hk, hv, hnm, hrest⟩ := goodEntries_cons k v rest hg
    have hstep : ∀ w : NVal α, ∀ k2 ∈ rest.map Prod.fst,
        k2 ∉ (acc ++ [(k, w)]).map Prod.fst := by
      intro w k2 hk2
      simp only [List.map_append, List.map_cons, List.map_nil, List.mem_append,
        List.mem_singleton, not_or]
      exact ⟨hdis k2 (List.mem_cons_of_mem _ hk2), fun hc => hnm (hc ▸ hk2)⟩
    have hka : k ∉ acc.map Prod.fst := hdis k (List.mem_cons_self _ _)
    cases v with
    | leaf a =>
      simp only [flattenPathsRaw, List.nil_append, List.singleton_append,
        List.foldl_cons]
      rw [insertPath_single k (NVal.leaf a) acc,
        ih2 hrest (acc ++ [(k, NVal.leaf a)]) (hstep _)]
      simp
    | map es =>
      cases es with
      | nil =>
        simp only [flattenPathsRaw, List.nil_append, List.singleton_append,
          List.foldl_cons]
        rw [insertPath_single k (NVal.map []) acc,
          ih2 hrest (acc ++ [(k, NVal.map [])]) (hstep _)]
        simp
      | cons e es2 =>
        have ih1a : goodEntries (e :: es2) = true →
            ∀ acc2 : List (Str × NVal α),
              (∀ k2 ∈ (e :: es2).map Prod.fst, k2 ∉ acc2.map Prod.fst) →
              List.foldl (fun a pv => insertPath pv.1 pv.2 a) acc2
                (flattenPathsRaw (e :: es2) []) = acc2 ++ (e :: es2) := ih1
        simp only [flattenPathsRaw, List.nil_append]
        rw [raw_cons_key, List.foldl_append]
        obtain ⟨pv0, L2, hinner⟩ : ∃ pv0 L2,
            flattenPathsRaw (e :: es2) ([] : List Str) = pv0 :: L2 := by
          cases hI : flattenPathsRaw (e :: es2) ([] : List Str) with
          | nil => exact absurd hI (raw_nonempty (e :: es2) [] (by simp))
          | cons a b => exact ⟨a, b, rfl⟩
        have hgood := raw_path_good (e :: es2) (hv (e :: es2) rfl)
        rw [hinner]
        obtain ⟨p, v2⟩ := pv0
        have hp1 : p ≠ [] := by
          have := hgood (p, v2) (by rw [hinner]; exact List.mem_cons_self _ _)
          exact this.1
        cases p with
        | nil => exact absurd rfl hp1
        | cons p1 ps =>
          simp only [List.map_cons, List.foldl_cons]
          rw [insertPath_new k p1 ps v2 acc hka]
          rw [foldl_insert_block k L2 (insertPath (p1 :: ps) v2 []) acc hka
            (fun pv h => (hgood pv
              (by rw [hinner]; exact List.mem_cons_of_mem _ h)).1)]
          have hfold : List.foldl (fun a pv => insertPath pv.1 pv.2 a)
              (insertPath (p1 :: ps) v2 []) L2 =
              List.foldl (fun a pv => insertPath pv.1 pv.2 a) []
                ((p1 :: ps, v2) :: L2) := rfl
          rw [hfold, ← hinner,
            ih1a (hv (e :: es2) rfl) [] (fun k2 _ hc => List.not_mem_nil k2 hc),
            List.nil_append,
            ih2 hrest (acc ++ [(k, NVal.map (e :: es2))]) (hstep _)]
          simp

theorem unflatten_flattenAux {α : Type} (d : List (Str × NVal α))
    (hg : goodEntries d = true) :
    List.foldl (fun acc kv => insertPath (splitOnChar '.' kv.1) kv.2 acc) []
      (flattenAux ['.'] d []) = d := by
  rw [flattenAux_eq_raw0, List.foldl_map]
  have hext : List.foldl
      (fun (acc : List (Str × NVal α)) (pv : List Str × NVal α) =>
        insertPath (splitOnChar '.' (joinPath ['.'] pv.1)) pv.2 acc) []
      (flattenPathsRaw d []) =
      List.foldl (fun a pv => insertPath pv.1 pv.2 a) []
        (flattenPathsRaw d []) := by
    apply List.foldl_ext
    intro a pv hpv
    have hgp := raw_path_good d hg pv hpv
    rw [splitOnChar_joinPath pv.1 hgp.2 hgp.1]
  rw [hext]
  exact foldl_insert_raw d hg [] (fun k2 _ hc => List.not_mem_nil k2 hc)

/-! ## C2: unflatten after flatten -/

/-- C2 counterexample: the round trip fails on a mapping whose key contains
the separator: `flatten({'a.b': 1}) = {'a.b': 1}`, and re-nesting by
splitting keys on `'.'` yields `{'a': {'b': 1}}`, not the original. -/
theorem C2_counterexample :
    unflatten (flatten_dict [(str "a.b", NVal.leaf (1 : ℚ))]) =
      [(str "a", NVal.map [(str "b", NVal.leaf 1)])]
    ∧ unflatten (flatten_dict [(str "a.b", NVal.leaf (1 : ℚ))]) ≠
      [(str "a.b", NVal.leaf 1)] := by
  have h1 : unflatten (flatten_dict [(str "a.b", NVal.leaf (1 : ℚ))]) =
      [(str "a", NVal.map [(str "b", NVal.leaf 1)])] := by
    simp [flatten_dict, flattenAux, pyDict, dictInsert, unflatten, splitOnChar,
      insertPath, str]
  refine ⟨h1, ?_⟩
  rw [h1]
  intro hc
  simp [str] at hc

/-- C2 (amended): for every finite nested mapping whose keys, at every level,
are non-empty, avoid the (default) separator `'.'` and are pairwise distinct,
re-nesting the output of `flatten_dict` by splitting each composite key on
the separator reconstructs the mapping exactly. -/
theorem C2_roundtrip {α : Type} (d : List (Str × NVal α))
    (hg : goodEntries d = true) : unflatten (flatten_dict d) = d := by
  unfold flatten_dict unflatten
  rw [pyDict_eq_self _ (flatten_keys_nodup d hg)]
  exact unflatten_flattenAux d hg

/-- Witness for C2 at a concrete input. -/
theorem C2_roundtrip_witness :
    goodEntries [(str "a", NVal.map [(str "b", NVal.leaf (1 : ℚ))]),
      (str "c", NVal.leaf 2)] = true
    ∧ unflatten (flatten_dict [(str "a", NVal.map [(str "b", NVal.leaf (1 : ℚ))]),
        (str "c", NVal.leaf 2)]) =
      [(str "a", NVal.map [(str "b", NVal.leaf 1)]), (str "c", NVal.leaf 2)] :=
  ⟨by simp [goodEntries, goodKey, str],
   C2_roundtrip [(str "a", NVal.map [(str "b", NVal.leaf (1 : ℚ))]),
      (str "c", NVal.leaf 2)] (by simp [goodEntries, goodKey, str])⟩
